import Mathlib

/-!
Verification of the data reconciliation and rendering pipeline of the
eth-spec-viewer repository.

The JavaScript core (`utils.js` and the variables rendering module) is
shallowly embedded below.  JavaScript strings are modelled by Lean
`String` (a wrapper around `List Char`); JavaScript objects whose key
order matters are modelled by association lists in insertion order;
`undefined`/`null` is modelled by `Option`; a thrown `TypeError` is
modelled by `Except.error`.
-/

namespace EthSpecViewer

/-! ## JavaScript string primitives -/

/-- Model of `s.toUpperCase()`.  JavaScript uppercases each UTF-16 unit;
the label/name alphabet of this program is basic latin, which is exactly
what `Char.toUpper` handles. -/
def jsToUpper (s : String) : String :=
  ⟨s.data.map Char.toUpper⟩

/-- Model of `s.endsWith(suffix)`: the unit sequence of `suffix` is a
suffix of the unit sequence of `s`. -/
def jsEndsWith (s suffix : String) : Bool :=
  suffix.data.isSuffixOf s.data

/-- Model of `s.startsWith(pre)`. -/
def jsStartsWith (s pre : String) : Bool :=
  pre.data.isPrefixOf s.data

/-- Truthiness of a possibly-absent JavaScript string: `undefined`,
`null` and `""` are falsy, every other string is truthy. -/
def strTruthy : Option String → Bool
  | none => false
  | some s => s ≠ ""

/-- Model of `x || d` for a possibly-absent JavaScript string `x`. -/
def jsOr (x : Option String) (d : String) : String :=
  match x with
  | none => d
  | some s => if s = "" then d else s

/-! ## utils.js: phase inclusion, name parsing, value parsing -/

/-- From `utils.js`:
`!phaseName.toUpperCase().startsWith("EIP") && phaseName.toUpperCase() != "WHISK"`. -/
def phaseIncluded (phaseName : String) : Bool :=
  !(jsStartsWith (jsToUpper phaseName) "EIP") && jsToUpper phaseName ≠ "WHISK"

/-- Result of `parseForkName`. -/
structure ParsedFork where
  base : String
  fork : Option String
  deriving DecidableEq, Repr

/-- From `utils.js`, `parseForkName(varName, knownForkNames)`: uppercase
the variable name, scan the known fork names in order, and on the first
`f` such that the uppercased name ends with `"_" + f`, strip that many
units from the original name; otherwise return the name with no fork. -/
def parseForkName (varName : String) (knownForkNames : List String) : ParsedFork :=
  match knownForkNames.find? (fun f => jsEndsWith (jsToUpper varName) ("_" ++ f)) with
  | some f => { base := ⟨varName.data.take (varName.data.length - ("_" ++ f).data.length)⟩,
                fork := some f }
  | none => { base := varName, fork := none }

/-- Result of `parseValue`. -/
structure ParsedValue where
  type : String
  value : String
  deriving DecidableEq, Repr

/-- `parseValue` restricted to a defined record: `fields[0] ?? "Unknown"`
and `fields[1] ?? "N/A"` on an array that exists.  This is the situation
in every call site inside `collectVariables`, where the record is fetched
at a key obtained from `Object.keys`. -/
def parseValueArr (fields : List String) : ParsedValue :=
  { type := (fields.get? 0).getD "Unknown"
    value := (fields.get? 1).getD "N/A" }

/-- From `utils.js`, `parseValue(fields)`.  When `fields` is `undefined`
(or `null`), the subscript `fields[0]` raises a `TypeError` before the
`??` defaults can apply; a defined array degrades index-wise to the
documented sentinels. -/
def parseValue (fields : Option (List String)) : Except String ParsedValue :=
  match fields with
  | none => Except.error "TypeError"
  | some fs => Except.ok (parseValueArr fs)

/-! ## utils.js: fork-group comparators

`FORK_ORDER` in the source is a proxy over a dynamically initialized
order list; the embedding passes that list explicitly as `forkOrder`.
`Array.prototype.indexOf` is modelled by `jsIndexOf` (`-1` when absent).
`String.prototype.localeCompare` under the default locale is modelled by
`jsLocaleCompare`: a primary pass that compares the case-folded unit
sequences, and — only when those agree — a tertiary pass in which a
lower-case unit sorts before the corresponding upper-case unit, which is
the ICU default behaviour on the basic-latin label alphabet. -/

/-- Model of `Array.prototype.indexOf`: index of the first occurrence,
`-1` when the element is absent. -/
def jsIndexOf : List String → String → Int
  | [], _ => -1
  | y :: ys, x =>
    if y = x then 0
    else
      let r := jsIndexOf ys x
      if r = -1 then -1 else r + 1

/-- Primary collation pass: compare unit sequences by code point. -/
def cmpChars : List Char → List Char → Ordering
  | [], [] => .eq
  | [], _ :: _ => .lt
  | _ :: _, [] => .gt
  | a :: as, b :: bs =>
    if a.toNat < b.toNat then .lt
    else if b.toNat < a.toNat then .gt
    else cmpChars as bs

/-- Tertiary collation pass: at the first position where exactly one
side is a lower-case letter, the lower-case side sorts first. -/
def cmpCase : List Char → List Char → Ordering
  | [], [] => .eq
  | [], _ :: _ => .lt
  | _ :: _, [] => .gt
  | a :: as, b :: bs =>
    if a.isLower && !b.isLower then .lt
    else if b.isLower && !a.isLower then .gt
    else cmpCase as bs

/-- Default-locale collation of two strings: primary (case-folded) pass,
then the tertiary case pass on ties. -/
def collate (a b : String) : Ordering :=
  match cmpChars (a.data.map Char.toUpper) (b.data.map Char.toUpper) with
  | .eq => cmpCase a.data b.data
  | o => o

/-- Model of `a.localeCompare(b)` in the default locale, as a sign. -/
def jsLocaleCompare (a b : String) : Int :=
  match collate a b with
  | .lt => -1
  | .eq => 0
  | .gt => 1

/-- From `utils.js`, `forkGroupCompareAscending(a, b)` with the ambient
`FORK_ORDER` passed explicitly.  (The source binds
`aIndex = FORK_ORDER.indexOf(a.toUpperCase())` and similarly `bIndex`
once; the bindings are expanded here.) -/
def forkGroupCompareAscending (forkOrder : List String) (a b : String) : Int :=
  if jsIndexOf forkOrder (jsToUpper a) ≠ -1 && jsIndexOf forkOrder (jsToUpper b) ≠ -1 then
    jsIndexOf forkOrder (jsToUpper a) - jsIndexOf forkOrder (jsToUpper b)
  else if jsIndexOf forkOrder (jsToUpper a) ≠ -1 then -1
  else if jsIndexOf forkOrder (jsToUpper b) ≠ -1 then 1
  else jsLocaleCompare a b

/-- From `utils.js`, `forkGroupCompareDescending(a, b)`: implemented as
the ascending comparison with swapped arguments. -/
def forkGroupCompareDescending (forkOrder : List String) (a b : String) : Int :=
  forkGroupCompareAscending forkOrder b a

/-! ## utils.js: highlightDiff -/

/-- Model of `s.split('\n')`: cut at every newline unit; the result is
never empty, and splitting the empty string yields `[""]`. -/
def splitLines : List Char → List (List Char)
  | [] => [[]]
  | c :: rest =>
    if c = '\n' then [] :: splitLines rest
    else
      match splitLines rest with
      | [] => [[c]]
      | l :: ls => (c :: l) :: ls

/-- `split('\n')` on a string. -/
def splitLinesS (s : String) : List String :=
  (splitLines s.data).map (fun l => ⟨l⟩)

/-- One entry pushed onto `result` inside `highlightDiff`: a plain line,
or a line wrapped in a removed/added highlight `div`. -/
inductive DiffPiece where
  | removed : String → DiffPiece
  | added : String → DiffPiece
  | same : String → DiffPiece
  deriving DecidableEq, Repr

/-- The HTML string pushed for each piece in `highlightDiff`. -/
def renderPiece : DiffPiece → String
  | .removed s => "<div class=\"diff-highlight-removed\">" ++ s ++ "</div>"
  | .added s => "<div class=\"diff-highlight-added\">" ++ s ++ "</div>"
  | .same s => s

/-- The loop body of `highlightDiff`, iterating the line index from `0`
to `max(oldLines.length, newLines.length) - 1`: past the end of the new
lines a line is removed, past the end of the old lines a line is added,
otherwise the pair is compared and emitted as removed-then-added when
unequal and as a plain line when equal. -/
def diffPieces : List String → List String → List DiffPiece
  | [], [] => []
  | o :: os, [] => .removed o :: diffPieces os []
  | [], n :: ns => .added n :: diffPieces [] ns
  | o :: os, n :: ns =>
    (if o ≠ n then [.removed o, .added n] else [.same n]) ++ diffPieces os ns

/-- Model of `result.join('\n')` on the pushed pieces. -/
def joinLines : List String → String
  | [] => ""
  | l :: ls =>
    match ls with
    | [] => l
    | _ :: _ => l ++ "\n" ++ joinLines ls

/-- From `utils.js`, `highlightDiff(oldText, newText)`.  A falsy input
(absent or empty text) short-circuits to `newText` verbatim; otherwise
both texts are split on newline, the positional line diff is rendered
and joined with newlines. -/
def highlightDiff (oldText newText : Option String) : Option String :=
  if strTruthy oldText = false || strTruthy newText = false then newText
  else
    let oldLines := splitLinesS (oldText.getD "")
    let newLines := splitLinesS (newText.getD "")
    some (joinLines ((diffPieces oldLines newLines).map renderPiece))

/-! ## The variables module: data model and association-list operations

A dataset (`data` in `collectVariables`) is a JavaScript object mapping
phase names to phase objects; a phase object maps field names to
variable maps; a variable map maps entity names to raw records.  Key
insertion order is significant for iteration, so each object is an
association list. -/

/-- A raw `[type, value]` record. -/
abbrev RawRecord := List String

/-- Entity name → raw record, in insertion order. -/
abbrev VarMap := List (String × RawRecord)

/-- Field name → variable map. -/
abbrev PhaseObj := List (String × VarMap)

/-- Phase name → phase object. -/
abbrev DataObj := List (String × PhaseObj)

/-- `baseVars[base]` in `collectVariables`. -/
structure BaseVar where
  type : String
  value : String
  introducingFork : String
  deriving DecidableEq, Repr

/-- An element of `forkVars[base]` in `collectVariables`. -/
structure ForkVar where
  fork : String
  value : String
  type : String
  deriving DecidableEq, Repr

/-- Property read `obj[k]` on an association list: value at the first
matching key, `undefined` (`none`) when absent. -/
def alookup {α : Type} : List (String × α) → String → Option α
  | [], _ => none
  | p :: rest, k => if p.1 = k then some p.2 else alookup rest k

/-- Property write `obj[k] = v`: overwrite the value at an existing key
in place, or append a new key. -/
def aset {α : Type} : List (String × α) → String → α → List (String × α)
  | [], k, v => [(k, v)]
  | p :: rest, k, v => if p.1 = k then (k, v) :: rest else p :: aset rest k v

/-- Nested read `obj[k1][k2]` (with `obj[k1]` known to be defined). -/
def alookup2 {α : Type} (l : List (String × List (String × α))) (k1 k2 : String) :
    Option α :=
  match alookup l k1 with
  | none => none
  | some m => alookup m k2

/-- Nested write `obj[k1][k2] = v` (with `obj[k1]` known to be defined). -/
def aset2 {α : Type} (l : List (String × List (String × α))) (k1 k2 : String)
    (v : α) : List (String × List (String × α)) :=
  aset l k1 (aset ((alookup l k1).getD []) k2 v)

/-- The three accumulator objects of `collectVariables`. -/
structure CollectState where
  baseVars : List (String × BaseVar)
  forkVars : List (String × List ForkVar)
  lastForkValue : List (String × List (String × String))
  deriving DecidableEq, Repr

/-- The result `{ baseVars, forkVars }` of `collectVariables`. -/
structure CollectResult where
  baseVars : List (String × BaseVar)
  forkVars : List (String × List ForkVar)
  deriving DecidableEq, Repr

/-- In-place field mutation `obj[k].f = ...`: rewrite the value stored
at key `k`, leaving the list structure untouched. -/
def amapAt {α : Type} (l : List (String × α)) (k : String) (g : α → α) :
    List (String × α) :=
  l.map (fun p => if p.1 = k then (p.1, g p.2) else p)

/-- The source line `if (!baseVars[base]) baseVars[base] = {...}`: the
`baseVars` object after ensuring the base entry exists, created from the
parsed record with `introducingFork = (fork || phaseName).toUpperCase()`. -/
def baseVarsEnsured (st : CollectState) (pr : ParsedFork) (phaseName : String)
    (parsed : ParsedValue) : List (String × BaseVar) :=
  if (alookup st.baseVars pr.base).isNone then
    st.baseVars ++ [(pr.base,
      { type := parsed.type, value := parsed.value,
        introducingFork := jsToUpper (jsOr pr.fork phaseName) })]
  else st.baseVars

/-- The source line `if (!forkVars[base]) forkVars[base] = []`. -/
def forkVarsEnsured (st : CollectState) (base : String) :
    List (String × List ForkVar) :=
  if (alookup st.forkVars base).isNone then st.forkVars ++ [(base, [])]
  else st.forkVars

/-- The source line `if (!lastForkValue[base]) lastForkValue[base] = {}`. -/
def lfvEnsured (st : CollectState) (base : String) :
    List (String × List (String × String)) :=
  if (alookup st.lastForkValue base).isNone then st.lastForkValue ++ [(base, [])]
  else st.lastForkValue

/-- The source line
`if (lastForkValue[base][fork] === undefined) lastForkValue[base][fork] = baseVars[base].value`:
the tracker object after seeding the (base, fork) slot with the current
base value the first time this fork is seen for this base. -/
def lfvInit (st : CollectState) (baseVars1 : List (String × BaseVar))
    (base fork : String) : List (String × List (String × String)) :=
  if (alookup2 (lfvEnsured st base) base fork).isNone then
    amapAt (lfvEnsured st base) base
      (fun m => aset m fork (((alookup baseVars1 base).map BaseVar.value).getD ""))
  else lfvEnsured st base

/-- The suffixed-name branch of the inner `forEach` of
`collectVariables`: after the ensure/seed steps, compare the parsed
value with `lastForkValue[base][fork]` and push an override entry (and
update the tracker) exactly when they differ. -/
def processVarFork (st : CollectState) (baseVars1 : List (String × BaseVar))
    (base fork : String) (parsed : ParsedValue) : CollectState :=
  if parsed.value ≠ (alookup2 (lfvInit st baseVars1 base fork) base fork).getD "" then
    { baseVars := baseVars1,
      forkVars := amapAt (forkVarsEnsured st base) base
        (fun l => l ++ [{ fork := fork, value := parsed.value, type := parsed.type }]),
      lastForkValue := amapAt (lfvInit st baseVars1 base fork) base
        (fun m => aset m fork parsed.value) }
  else
    { baseVars := baseVars1, forkVars := forkVarsEnsured st base,
      lastForkValue := lfvInit st baseVars1 base fork }

/-- Body of the inner `forEach` of `collectVariables` for one variable
name/record pair of one phase.  `knownForkNames` are the uppercased
included phase names, `phaseName` is the phase being processed.  The
structure mirrors the source: create the base entry when absent; on an
unsuffixed (falsy-fork) name overwrite the base type/value and stop; on
a suffixed name run the override-tracking branch. -/
def processVar (knownForkNames : List String) (phaseName : String)
    (st : CollectState) (nv : String × RawRecord) : CollectState :=
  if strTruthy (parseForkName nv.1 knownForkNames).fork = false then
    { st with baseVars := (amapAt
        (baseVarsEnsured st (parseForkName nv.1 knownForkNames) phaseName
          (parseValueArr nv.2))
        (parseForkName nv.1 knownForkNames).base
        (fun bv => { bv with type := (parseValueArr nv.2).type, value := (parseValueArr nv.2).value })) }
  else
    processVarFork st
      (baseVarsEnsured st (parseForkName nv.1 knownForkNames) phaseName
        (parseValueArr nv.2))
      (parseForkName nv.1 knownForkNames).base
      (jsOr (parseForkName nv.1 knownForkNames).fork "")
      (parseValueArr nv.2)

/-- Body of the outer `forEach` of `collectVariables` for one included
phase name: skip the phase when the field is absent from its phase
object, otherwise process every variable entry in key order. -/
def processPhase (data : DataObj) (field : String) (knownForkNames : List String)
    (st : CollectState) (phaseName : String) : CollectState :=
  match alookup data phaseName with
  | none => st
  | some phaseObj =>
    match alookup phaseObj field with
    | none => st
    | some varMap => varMap.foldl (processVar knownForkNames phaseName) st

/-- From the variables module, `collectVariables(data, field)`: a falsy
dataset yields empty results; otherwise the included phases are
processed in insertion order against the uppercased included phase
names, and the `baseVars`/`forkVars` accumulators are returned. -/
def collectVariables (data : Option DataObj) (field : String) : CollectResult :=
  match data with
  | none => { baseVars := [], forkVars := [] }
  | some d =>
    let includedPhases := (d.map Prod.fst).filter phaseIncluded
    let knownForkNames := includedPhases.map jsToUpper
    let st := includedPhases.foldl (processPhase d field knownForkNames)
      { baseVars := [], forkVars := [], lastForkValue := [] }
    { baseVars := st.baseVars, forkVars := st.forkVars }

/-- Result of `getForkValue`: `value` is `undefined` (`none`) when the
fork has no record for the variable. -/
structure ForkValueResult where
  value : Option String
  type : String
  deriving DecidableEq, Repr

/-- From the variables module, `getForkValue(fk, baseVal, forkArr)`: the
base value at the introducing fork, otherwise a scan of the override
array in which every matching element overwrites the previous match. -/
def getForkValue (fk : String) (baseVal : Option BaseVar)
    (forkArr : Option (List ForkVar)) : ForkValueResult :=
  match baseVal with
  | none => { value := none, type := "" }
  | some bv =>
    if fk = bv.introducingFork then { value := some bv.value, type := bv.type }
    else
      match forkArr with
      | none => { value := none, type := "" }
      | some arr =>
        match arr.foldl
            (fun acc f => if f.fork = fk then some (f.value, f.type) else acc)
            (none : Option (String × String)) with
        | none => { value := none, type := "" }
        | some (v, t) => { value := some v, type := t }

/-- The fixed chronological prefix list from `constants.js`. -/
def knownOrderConst : List String :=
  ["PHASE0", "ALTAIR", "BELLATRIX", "CAPELLA", "DENEB", "ELECTRA", "FULU"]

/-- From `constants.js`, the `order` computed by `initializeForkConfig`:
discovered (included, uppercased) fork names, arranged as the known
chronological prefix followed by the unknown names sorted
lexicographically.  This list is what the `FORK_ORDER` proxy exposes at
run time. -/
def initForkOrder (networkData : DataObj) : List String :=
  let discoveredForks := ((networkData.map Prod.fst).filter phaseIncluded).map jsToUpper
  let knownForks := knownOrderConst.filter (fun f => discoveredForks.contains f)
  let unknownForks :=
    List.insertionSort (fun a b : String => a ≤ b)
      (discoveredForks.filter (fun f => !knownOrderConst.contains f))
  knownForks ++ unknownForks

/-! ## Specification-side definitions

The definitions in this section follow the wording of the specification
(not the source) and are used to compare the source functions against
the specified behaviour. -/

/-- Index of the first occurrence of `x` in `l`, as an option — the
specification-side counterpart of `jsIndexOf`. -/
def listIdx : List String → String → Option Nat
  | [], _ => none
  | y :: ys, x => if y = x then some 0 else (listIdx ys x).map (· + 1)

/-- The specification's description of the diff loop at one line index:
beyond the end of the new lines the old line is removed, beyond the end
of the old lines the new line is added, and an index within both sides
is changed exactly when the lines are unequal. -/
def specDiffAt (oldLines newLines : List String) (i : Nat) : List DiffPiece :=
  if newLines.length ≤ i then [.removed (oldLines.getD i "")]
  else if oldLines.length ≤ i then [.added (newLines.getD i "")]
  else if oldLines.getD i "" ≠ newLines.getD i "" then
    [.removed (oldLines.getD i ""), .added (newLines.getD i "")]
  else [.same (newLines.getD i "")]

/-- The specification's description of the whole diff: iterate the index
from `0` to `max(lenOld, lenNew) - 1` and emit the tags of `specDiffAt`. -/
def specDiff (oldLines newLines : List String) : List DiffPiece :=
  (List.range (max oldLines.length newLines.length)).flatMap
    (specDiffAt oldLines newLines)

/-- The uppercased included phase names of a dataset, exactly as
`collectVariables` computes its `knownForkNames`. -/
def knownNames (d : DataObj) : List String :=
  ((d.map Prod.fst).filter phaseIncluded).map jsToUpper

/-- The flattened processing order of `collectVariables`: included
phases in dataset insertion order, and within each phase the entries of
the requested field in key order.  Each element is
`(phaseName, varName, record)`. -/
def procRecords (d : DataObj) (field : String) : List (String × String × RawRecord) :=
  ((d.map Prod.fst).filter phaseIncluded).flatMap (fun p =>
    match alookup d p with
    | none => []
    | some phaseObj =>
      match alookup phaseObj field with
      | none => []
      | some varMap => varMap.map (fun nv => (p, nv.1, nv.2)))

/-- The revision a record resolves to: its suffix revision when the name
is suffixed, the containing phase otherwise, uppercased — the
specification-side counterpart of `(fork || phaseName).toUpperCase()`. -/
def resolveRev (known : List String) (phaseName varName : String) : String :=
  jsToUpper (jsOr (parseForkName varName known).fork phaseName)

/-- All revisions at which any record for a base name appears in a
dataset, in processing order. -/
def appearanceRevs (d : DataObj) (field base : String) : List String :=
  (procRecords d field).filterMap (fun r =>
    if (parseForkName r.2.1 (knownNames d)).base = base
    then some (resolveRev (knownNames d) r.1 r.2.1) else none)

/-! ## Concrete datasets used by scenario theorems and counterexamples -/

/-- The scenario input of the specification: `FOO` introduced unsuffixed
at `PHASE0` and overridden as `FOO_ALTAIR` at `ALTAIR`. -/
def scenarioData : DataObj :=
  [("PHASE0", [("constant_vars", [("FOO", ["uint64", "1"])])]),
   ("ALTAIR", [("constant_vars", [("FOO_ALTAIR", ["uint64", "2"])])])]

/-- A dataset in which `FOO` changes to the same value `"2"` at two
different forks, producing two adjacent override entries with equal
value. -/
def dataAdjacentEqual : DataObj :=
  [("PHASE0", [("constant_vars", [("FOO", ["t", "1"])])]),
   ("ALTAIR", [("constant_vars", [("FOO_ALTAIR", ["t", "2"])])]),
   ("BELLATRIX", [("constant_vars", [("FOO_BELLATRIX", ["t", "2"])])])]

/-- A dataset in which the suffixed name `FOO_ALTAIR` appears under two
phases with different values, producing two override entries with the
same revision label. -/
def dataDupRevision : DataObj :=
  [("PHASE0", [("constant_vars", [("FOO", ["t", "1"])])]),
   ("ALTAIR", [("constant_vars", [("FOO_ALTAIR", ["t", "2"])])]),
   ("BELLATRIX", [("constant_vars", [("FOO_ALTAIR", ["t", "3"])])])]

/-- A dataset in which the first record for `FOO` is the suffixed
`FOO_BELLATRIX` (under phase `PHASE0`), while an unsuffixed record for
`FOO` appears at the chronologically earlier `ALTAIR`. -/
def dataLateIntro : DataObj :=
  [("PHASE0", [("constant_vars", [("FOO_BELLATRIX", ["t", "2"])])]),
   ("ALTAIR", [("constant_vars", [("FOO", ["t", "1"])])]),
   ("BELLATRIX", [("constant_vars", [])])]

/-! ## Character and collation lemmas -/

theorem charToNat_ofNatAux (n : Nat) (h : n.isValidChar) :
    (Char.ofNatAux n h).toNat = n := by
  simp [Char.ofNatAux, Char.toNat, UInt32.toNat]

theorem charToNat_ofNat_valid (n : Nat) (h : n.isValidChar) :
    (Char.ofNat n).toNat = n := by
  simp [Char.ofNat, h, charToNat_ofNatAux]

theorem toUpper_fix (c : Char) (h : ¬(c.toNat ≥ 97 ∧ c.toNat ≤ 122)) :
    Char.toUpper c = c := by
  unfold Char.toUpper
  exact if_neg h

theorem toUpper_toNat_not_lower (c : Char) :
    ¬((Char.toUpper c).toNat ≥ 97 ∧ (Char.toUpper c).toNat ≤ 122) := by
  unfold Char.toUpper
  by_cases h : c.toNat ≥ 97 ∧ c.toNat ≤ 122
  · rw [if_pos h]
    have hv : (c.toNat - 32).isValidChar := by
      constructor
      omega
    rw [charToNat_ofNat_valid _ hv]
    omega
  · rw [if_neg h]
    omega

theorem toUpper_idem (c : Char) : Char.toUpper (Char.toUpper c) = Char.toUpper c :=
  toUpper_fix _ (toUpper_toNat_not_lower c)

theorem cmpChars_swap (as bs : List Char) : cmpChars bs as = (cmpChars as bs).swap := by
  induction as generalizing bs with
  | nil => cases bs <;> rfl
  | cons a as ih =>
    cases bs with
    | nil => rfl
    | cons b bs =>
      simp only [cmpChars]
      by_cases h1 : a.toNat < b.toNat
      · rw [if_neg (by omega), if_pos h1, if_pos h1]
        rfl
      · by_cases h2 : b.toNat < a.toNat
        · rw [if_pos h2, if_neg h1, if_pos h2]
          rfl
        · rw [if_neg h2, if_neg h1, if_neg h1, if_neg h2]
          exact ih bs

theorem cmpCase_swap (as bs : List Char) : cmpCase bs as = (cmpCase as bs).swap := by
  induction as generalizing bs with
  | nil => cases bs <;> rfl
  | cons a as ih =>
    cases bs with
    | nil => rfl
    | cons b bs =>
      simp only [cmpCase]
      cases ha : a.isLower <;> cases hb : b.isLower <;>
        simp [ha, hb, ih bs, Ordering.swap]

theorem collate_swap (a b : String) : collate b a = (collate a b).swap := by
  unfold collate
  rw [cmpChars_swap]
  cases cmpChars (a.data.map Char.toUpper) (b.data.map Char.toUpper) with
  | eq => simpa using cmpCase_swap a.data b.data
  | lt => rfl
  | gt => rfl

theorem jsLocaleCompare_antisymm (a b : String) :
    jsLocaleCompare b a = -jsLocaleCompare a b := by
  unfold jsLocaleCompare
  rw [collate_swap]
  cases collate a b <;> rfl

theorem asc_antisymm (forkOrder : List String) (a b : String) :
    forkGroupCompareAscending forkOrder b a = -forkGroupCompareAscending forkOrder a b := by
  unfold forkGroupCompareAscending
  generalize jsIndexOf forkOrder (jsToUpper a) = ai
  generalize jsIndexOf forkOrder (jsToUpper b) = bi
  simp only [Bool.and_eq_true, decide_eq_true_eq]
  split_ifs <;>
    first
      | omega
      | exact jsLocaleCompare_antisymm a b

theorem jsIndexOf_eq_listIdx (l : List String) (x : String) :
    jsIndexOf l x = match listIdx l x with | none => -1 | some i => (i : Int) := by
  induction l with
  | nil => rfl
  | cons y ys ih =>
    simp only [jsIndexOf, listIdx]
    by_cases h : y = x
    · simp [h]
    · simp only [if_neg h, ih]
      cases listIdx ys x with
      | none => simp
      | some i =>
        have hne : ((i : Int)) ≠ -1 := by omega
        simp [hne]

theorem jsIndexOf_of_listIdx_some {l : List String} {x : String} {i : Nat}
    (h : listIdx l x = some i) : jsIndexOf l x = (i : Int) := by
  rw [jsIndexOf_eq_listIdx, h]

theorem jsIndexOf_of_listIdx_none {l : List String} {x : String}
    (h : listIdx l x = none) : jsIndexOf l x = -1 := by
  rw [jsIndexOf_eq_listIdx, h]

/-! ## Claim theorems: parsers, comparators, diff short-circuit -/

/-- C3 counterexample: on a missing (`undefined`) record, `parseValue`
raises a `TypeError` instead of degrading to the documented defaults. -/
theorem parseValue_missing_throws :
    parseValue none = Except.error "TypeError" ∧
    parseValue none ≠ Except.ok { type := "Unknown", value := "N/A" } := by
  exact ⟨rfl, by simp [parseValue]⟩

/-- C3 (amended): for every defined record array, `parseValue` never
throws: it returns the element at index 0 as the type, defaulting to
"Unknown" when absent, and the element at index 1 as the value,
defaulting to "N/A" when absent.  A missing/undefined record, however,
raises a `TypeError` rather than degrading to the defaults. -/
theorem parseValue_defined_never_throws (fs : List String) :
    ∃ p : ParsedValue, parseValue (some fs) = Except.ok p ∧
      p.type = ((fs.get? 0).getD "Unknown") ∧
      p.value = ((fs.get? 1).getD "N/A") :=
  ⟨parseValueArr fs, rfl, rfl, rfl⟩

/-- C10: whenever the old text or the new text is falsy (absent or
empty), `highlightDiff` returns the new text verbatim, with no line
tagged added, removed or changed — the positional diff is bypassed
entirely. -/
theorem highlightDiff_falsy_returns_new (oldText newText : Option String)
    (h : strTruthy oldText = false ∨ strTruthy newText = false) :
    highlightDiff oldText newText = newText := by
  unfold highlightDiff
  rcases h with h | h <;> simp [h]

/-- Witness for C10: a wholly new two-line text diffed against an absent
old text comes back verbatim, with no added tags. -/
theorem highlightDiff_falsy_returns_new_witness :
    highlightDiff none (some "x\ny") = some "x\ny" :=
  highlightDiff_falsy_returns_new none (some "x\ny") (Or.inl rfl)

/-- C7: `forkGroupCompareDescending` is `forkGroupCompareAscending`
with swapped arguments (definitionally, not an independent
implementation), and its result is the exact negation of the ascending
comparison, the tie value 0 included. -/
theorem forkGroupCompareDescending_spec (forkOrder : List String) (a b : String) :
    forkGroupCompareDescending forkOrder a b = forkGroupCompareAscending forkOrder b a ∧
    forkGroupCompareDescending forkOrder a b = -forkGroupCompareAscending forkOrder a b :=
  ⟨rfl, asc_antisymm forkOrder a b⟩

/-- C6 counterexample: for the labels "zz" and "ZZ", neither of which
appears in the known order list, uppercase normalization makes the two
labels equal (so the claimed comparison would return 0), but
`forkGroupCompareAscending` compares the original strings with a
locale-sensitive comparison and returns -1. -/
theorem forkGroupCompareAscending_uppercase_cex :
    jsIndexOf knownOrderConst (jsToUpper "zz") = -1 ∧
    jsIndexOf knownOrderConst (jsToUpper "ZZ") = -1 ∧
    jsToUpper "zz" = jsToUpper "ZZ" ∧
    forkGroupCompareAscending knownOrderConst "zz" "ZZ" ≠ 0 := by
  refine ⟨by decide, by decide, by decide, by decide⟩

/-- C6 (amended): when both uppercased labels appear in the order list
the comparison is the difference of their indices; when exactly one
appears it sorts first; when neither appears the comparison is the
locale-sensitive comparison of the two original labels, without
normalizing them to uppercase (labels differing only in case compare
nonzero). -/
theorem forkGroupCompareAscending_spec (forkOrder : List String) (a b : String) :
    (∀ i j : Nat, listIdx forkOrder (jsToUpper a) = some i →
        listIdx forkOrder (jsToUpper b) = some j →
        forkGroupCompareAscending forkOrder a b = (i : Int) - (j : Int)) ∧
    (∀ i : Nat, listIdx forkOrder (jsToUpper a) = some i →
        listIdx forkOrder (jsToUpper b) = none →
        forkGroupCompareAscending forkOrder a b = -1) ∧
    (∀ j : Nat, listIdx forkOrder (jsToUpper a) = none →
        listIdx forkOrder (jsToUpper b) = some j →
        forkGroupCompareAscending forkOrder a b = 1) ∧
    (listIdx forkOrder (jsToUpper a) = none →
        listIdx forkOrder (jsToUpper b) = none →
        forkGroupCompareAscending forkOrder a b = jsLocaleCompare a b) := by
  refine ⟨?_, ?_, ?_, ?_⟩
  · intro i j hi hj
    unfold forkGroupCompareAscending
    rw [jsIndexOf_of_listIdx_some hi, jsIndexOf_of_listIdx_some hj]
    have h1 : ((i : Int)) ≠ -1 := by omega
    have h2 : ((j : Int)) ≠ -1 := by omega
    simp [h1, h2]
  · intro i hi hj
    unfold forkGroupCompareAscending
    rw [jsIndexOf_of_listIdx_some hi, jsIndexOf_of_listIdx_none hj]
    have h1 : ((i : Int)) ≠ -1 := by omega
    simp [h1]
  · intro j hi hj
    unfold forkGroupCompareAscending
    rw [jsIndexOf_of_listIdx_none hi, jsIndexOf_of_listIdx_some hj]
    have h2 : ((j : Int)) ≠ -1 := by omega
    simp [h2]
  · intro hi hj
    unfold forkGroupCompareAscending
    rw [jsIndexOf_of_listIdx_none hi, jsIndexOf_of_listIdx_none hj]
    simp

/-- Witness for C6 (amended): both known labels compare by index, and
two unknown labels fall back to the locale comparison of the originals. -/
theorem forkGroupCompareAscending_spec_witness :
    forkGroupCompareAscending ["PHASE0", "ALTAIR"] "altair" "phase0" =
      ((1 : Nat) : Int) - ((0 : Nat) : Int) ∧
    forkGroupCompareAscending [] "b" "a" = jsLocaleCompare "b" "a" :=
  ⟨(forkGroupCompareAscending_spec ["PHASE0", "ALTAIR"] "altair" "phase0").1 1 0
      (by decide) (by decide),
   (forkGroupCompareAscending_spec [] "b" "a").2.2.2 (by decide) (by decide)⟩

/-! ## Name parser lemmas and claim C5 -/

theorem jsEndsWith_iff (s suffix : String) :
    jsEndsWith s suffix = true ↔ suffix.data <:+ s.data := by
  simp [jsEndsWith]

theorem map_toUpper_fix {l : List Char} (h : ∀ c ∈ l, Char.toUpper c = c) :
    l.map Char.toUpper = l := by
  induction l with
  | nil => rfl
  | cons c cs ih =>
    rw [List.map_cons, h c (List.mem_cons_self c cs),
      ih (fun d hd => h d (List.mem_cons_of_mem c hd))]

theorem jsToUpper_fix_of_matches {varName L : String}
    (h : jsEndsWith (jsToUpper varName) ("_" ++ L) = true) : jsToUpper L = L := by
  have hs : ("_" ++ L).data <:+ (jsToUpper varName).data := (jsEndsWith_iff _ _).mp h
  have hL : L.data <:+ varName.data.map Char.toUpper := by
    refine List.IsSuffix.trans ⟨['_'], rfl⟩ hs
  have hmap : L.data.map Char.toUpper = L.data := by
    apply map_toUpper_fix
    intro c hc
    obtain ⟨d, _, rfl⟩ := List.mem_map.mp (hL.subset hc)
    exact toUpper_idem d
  show (⟨L.data.map Char.toUpper⟩ : String) = L
  rw [hmap]

theorem find?_first {p : String → Bool} (pre : List String) (L : String)
    (post : List String) (hpre : ∀ f ∈ pre, p f = false) (hL : p L = true) :
    (pre ++ L :: post).find? p = some L := by
  induction pre with
  | nil => simpa using List.find?_cons_of_pos post hL
  | cons x xs ih =>
    have hx : ¬p x = true := by simp [hpre x (List.mem_cons_self x xs)]
    rw [List.cons_append, List.find?_cons_of_neg _ hx]
    exact ih (fun f hf => hpre f (List.mem_cons_of_mem x hf))

theorem drop_of_suffix {l₁ l₂ : List Char} (h : l₁ <:+ l₂) :
    l₂.drop (l₂.length - l₁.length) = l₁ := by
  obtain ⟨t, rfl⟩ := h
  rw [List.length_append, Nat.add_sub_cancel]
  exact List.drop_left t l₁

/-- C5: `parseForkName` checks for each known label, in iteration order,
whether the uppercased raw name ends with `"_" + label`; with no match
it returns the raw name and no revision; on the first match it returns
the raw name with the suffix length stripped from the end (preserving
the original casing, so that the stripped part concatenated back yields
the raw name and uppercases to exactly `"_" + label`), with the revision
equal to the label uppercased.  Its inputs are never mutated (the
embedding is pure). -/
theorem parseForkName_spec (varName : String) (known : List String) :
    ((∀ f ∈ known, jsEndsWith (jsToUpper varName) ("_" ++ f) = false) →
      parseForkName varName known = { base := varName, fork := none }) ∧
    (∀ pre L post, known = pre ++ L :: post →
      (∀ f ∈ pre, jsEndsWith (jsToUpper varName) ("_" ++ f) = false) →
      jsEndsWith (jsToUpper varName) ("_" ++ L) = true →
      parseForkName varName known =
        { base := ⟨varName.data.take (varName.data.length - (L.data.length + 1))⟩,
          fork := some (jsToUpper L) } ∧
      jsToUpper ⟨varName.data.drop (varName.data.length - (L.data.length + 1))⟩ =
        "_" ++ L ∧
      (⟨varName.data.take (varName.data.length - (L.data.length + 1))⟩ : String) ++
        ⟨varName.data.drop (varName.data.length - (L.data.length + 1))⟩ = varName) := by
  constructor
  · intro h
    unfold parseForkName
    have hnone : known.find? (fun f => jsEndsWith (jsToUpper varName) ("_" ++ f)) = none := by
      rw [List.find?_eq_none]
      intro x hx
      simp [h x hx]
    rw [hnone]
  · intro pre L post hk hpre hL
    have hfind : known.find? (fun f => jsEndsWith (jsToUpper varName) ("_" ++ f)) = some L := by
      rw [hk]
      exact find?_first pre L post hpre hL
    have hfix : jsToUpper L = L := jsToUpper_fix_of_matches hL
    have hlen : ("_" ++ L).data.length = L.data.length + 1 := by
      rw [String.data_append, List.length_append]
      simp [Nat.add_comm]
    have hs : ("_" ++ L).data <:+ varName.data.map Char.toUpper :=
      (jsEndsWith_iff _ _).mp hL
    refine ⟨?_, ?_, ?_⟩
    · unfold parseForkName
      rw [hfind]
      show ParsedFork.mk ⟨varName.data.take (varName.data.length - ("_" ++ L).data.length)⟩
          (some L) =
        ParsedFork.mk ⟨varName.data.take (varName.data.length - (L.data.length + 1))⟩
          (some (jsToUpper L))
      rw [hlen, hfix]
    · show (⟨(varName.data.drop (varName.data.length - (L.data.length + 1))).map
        Char.toUpper⟩ : String) = "_" ++ L
      rw [List.map_drop]
      have hlenmap : (varName.data.map Char.toUpper).length = varName.data.length := by
        rw [List.length_map]
      have hdrop := drop_of_suffix hs
      rw [hlenmap, hlen] at hdrop
      rw [hdrop]
    · show (⟨varName.data.take (varName.data.length - (L.data.length + 1)) ++
        varName.data.drop (varName.data.length - (L.data.length + 1))⟩ : String) = varName
      rw [List.take_append_drop]

/-- Witness for C5: parsing "Foo_Altair" against known labels
["PHASE0", "ALTAIR"] matches the second label and strips the suffix
while preserving the casing of the base. -/
theorem parseForkName_spec_witness :
    parseForkName "Foo_Altair" ["PHASE0", "ALTAIR"] =
      { base := "Foo", fork := some "ALTAIR" } := by
  have h := ((parseForkName_spec "Foo_Altair" ["PHASE0", "ALTAIR"]).2
    ["PHASE0"] "ALTAIR" [] rfl (by decide) (by decide)).1
  rw [h]
  rfl

/-! ## Diff renderer lemmas and claim C9 -/

theorem string_ext {s t : String} (h : s.data = t.data) : s = t := by
  cases s
  cases t
  cases h
  rfl

theorem mk_append (a b : List Char) : (⟨a⟩ : String) ++ ⟨b⟩ = ⟨a ++ b⟩ := rfl

theorem specDiffAt_succ_cons_cons (o : String) (os : List String) (n : String)
    (ns : List String) (i : Nat) :
    specDiffAt (o :: os) (n :: ns) (i + 1) = specDiffAt os ns i := by
  simp [specDiffAt, Nat.add_le_add_iff_right]

theorem specDiffAt_succ_nil_cons (n : String) (ns : List String) (i : Nat) :
    specDiffAt [] (n :: ns) (i + 1) = specDiffAt [] ns i := by
  simp [specDiffAt, Nat.add_le_add_iff_right]

theorem specDiffAt_succ_cons_nil (o : String) (os : List String) (i : Nat) :
    specDiffAt (o :: os) [] (i + 1) = specDiffAt os [] i := by
  simp [specDiffAt]

theorem specDiff_cons_cons (o : String) (os : List String) (n : String)
    (ns : List String) :
    specDiff (o :: os) (n :: ns) = specDiffAt (o :: os) (n :: ns) 0 ++ specDiff os ns := by
  unfold specDiff
  rw [List.length_cons, List.length_cons, Nat.succ_max_succ, List.range_succ_eq_map,
    List.flatMap_cons]
  congr 1
  rw [List.flatMap_map]
  simp only [Function.comp, Nat.succ_eq_add_one, specDiffAt_succ_cons_cons]

theorem specDiff_nil_cons (n : String) (ns : List String) :
    specDiff [] (n :: ns) = specDiffAt [] (n :: ns) 0 ++ specDiff [] ns := by
  unfold specDiff
  simp only [List.length_nil, List.length_cons, Nat.max_eq_right (Nat.zero_le _)]
  rw [List.range_succ_eq_map, List.flatMap_cons]
  congr 1
  rw [List.flatMap_map]
  simp only [Function.comp, Nat.succ_eq_add_one, specDiffAt_succ_nil_cons]

theorem specDiff_cons_nil (o : String) (os : List String) :
    specDiff (o :: os) [] = specDiffAt (o :: os) [] 0 ++ specDiff os [] := by
  unfold specDiff
  simp only [List.length_nil, List.length_cons, Nat.max_eq_left (Nat.zero_le _)]
  rw [List.range_succ_eq_map, List.flatMap_cons]
  congr 1
  rw [List.flatMap_map]
  simp only [Function.comp, Nat.succ_eq_add_one, specDiffAt_succ_cons_nil]

theorem specDiffAt_zero_nil_cons (n : String) (ns : List String) :
    specDiffAt [] (n :: ns) 0 = [.added n] := by
  simp [specDiffAt]

theorem specDiffAt_zero_cons_nil (o : String) (os : List String) :
    specDiffAt (o :: os) [] 0 = [.removed o] := by
  simp [specDiffAt]

theorem specDiffAt_zero_cons_cons (o : String) (os : List String) (n : String)
    (ns : List String) :
    specDiffAt (o :: os) (n :: ns) 0 =
      if o ≠ n then [.removed o, .added n] else [.same n] := by
  by_cases h : o = n <;> simp [specDiffAt, h]

theorem diffPieces_eq_specDiff (os ns : List String) : diffPieces os ns = specDiff os ns := by
  induction os generalizing ns with
  | nil =>
    induction ns with
    | nil => simp [diffPieces, specDiff]
    | cons n ns ihn =>
      rw [specDiff_nil_cons, specDiffAt_zero_nil_cons, ← ihn]
      simp [diffPieces]
  | cons o os iho =>
    cases ns with
    | nil =>
      rw [specDiff_cons_nil, specDiffAt_zero_cons_nil, ← iho []]
      simp [diffPieces]
    | cons n ns =>
      rw [specDiff_cons_cons, specDiffAt_zero_cons_cons, ← iho ns]
      simp [diffPieces]

theorem diffPieces_self (l : List String) : diffPieces l l = l.map DiffPiece.same := by
  induction l with
  | nil => simp [diffPieces]
  | cons a l ih => simp [diffPieces, ih]

theorem diffPieces_append_one (l : List String) (x : String) :
    diffPieces l (l ++ [x]) = l.map DiffPiece.same ++ [DiffPiece.added x] := by
  induction l with
  | nil => simp [diffPieces]
  | cons a l ih => simp [diffPieces, ih]

theorem splitLines_ne_nil (xs : List Char) : splitLines xs ≠ [] := by
  cases xs with
  | nil => simp [splitLines]
  | cons c cs =>
    by_cases h : c = '\n'
    · simp [splitLines, h]
    · simp only [splitLines, if_neg h]
      cases splitLines cs <;> simp

theorem splitLines_append_newline (xs ys : List Char) :
    splitLines (xs ++ '\n' :: ys) = splitLines xs ++ splitLines ys := by
  induction xs with
  | nil => simp [splitLines]
  | cons c xs ih =>
    rw [List.cons_append]
    by_cases h : c = '\n'
    · simp [splitLines, h, ih]
    · simp only [splitLines, if_neg h, ih]
      cases hm : splitLines xs with
      | nil => exact absurd hm (splitLines_ne_nil xs)
      | cons l ls => simp

theorem splitLines_no_newline (xs : List Char) (h : '\n' ∉ xs) : splitLines xs = [xs] := by
  induction xs with
  | nil => rfl
  | cons c cs ih =>
    by_cases hc : c = '\n'
    · subst hc
      exact absurd (List.mem_cons_self _ _) h
    · have h' : '\n' ∉ cs := fun m => h (List.mem_cons_of_mem c m)
      simp only [splitLines, if_neg hc, ih h']

theorem splitLines_cons_newline (cs : List Char) :
    splitLines ('\n' :: cs) = [] :: splitLines cs := by
  simp [splitLines]

theorem splitLines_cons_other (c : Char) (cs l : List Char) (ls : List (List Char))
    (h : ¬c = '\n') (hm : splitLines cs = l :: ls) :
    splitLines (c :: cs) = (c :: l) :: ls := by
  simp [splitLines, h, hm]

theorem joinLines_cons_cons (a b : String) (rest : List String) :
    joinLines (a :: b :: rest) = a ++ "\n" ++ joinLines (b :: rest) := rfl

theorem joinLines_splitLines (xs : List Char) :
    joinLines ((splitLines xs).map (fun l => (⟨l⟩ : String))) = ⟨xs⟩ := by
  induction xs with
  | nil => rfl
  | cons c cs ih =>
    cases hm : splitLines cs with
    | nil => exact absurd hm (splitLines_ne_nil cs)
    | cons l ls =>
      rw [hm, List.map_cons] at ih
      by_cases h : c = '\n'
      · subst h
        rw [splitLines_cons_newline, hm, List.map_cons, List.map_cons,
          joinLines_cons_cons, ih]
        apply string_ext
        simp [String.data_append]
      · rw [splitLines_cons_other c cs l ls h hm, List.map_cons]
        cases ls with
        | nil =>
          simp only [List.map_nil, joinLines] at ih ⊢
          have hlcs : l = cs := congrArg String.data ih
          rw [hlcs]
        | cons m ms =>
          rw [List.map_cons, joinLines_cons_cons] at ih ⊢
          apply string_ext
          have hd := congrArg String.data ih
          simp only [String.data_append, List.singleton_append, List.cons_append,
            List.append_assoc] at hd ⊢
          rw [hd]

/-- C9: the diff renderer's loop is the specified positional line diff
(per-index case analysis over `0 .. max(lenOld,lenNew) - 1`, tagging an
index beyond one side purely removed/added and an in-range pair changed
exactly when unequal); consequently two equal non-empty texts produce
all-unchanged tags (and render back to the text itself), and a new text
equal to the old text plus one extra trailing line produces unchanged
tags for every prior line and a single added tag for the extra line. -/
theorem highlightDiff_spec :
    (∀ os ns : List String, diffPieces os ns = specDiff os ns) ∧
    (∀ s : String, s ≠ "" →
      diffPieces (splitLinesS s) (splitLinesS s) = (splitLinesS s).map DiffPiece.same ∧
      highlightDiff (some s) (some s) = some s) ∧
    (∀ old extra : String, old ≠ "" → '\n' ∉ extra.data →
      diffPieces (splitLinesS old) (splitLinesS (old ++ "\n" ++ extra)) =
        (splitLinesS old).map DiffPiece.same ++ [DiffPiece.added extra]) := by
  refine ⟨diffPieces_eq_specDiff, ?_, ?_⟩
  · intro s hs
    refine ⟨diffPieces_self _, ?_⟩
    have ht : strTruthy (some s) = true := by simp [strTruthy, hs]
    unfold highlightDiff
    rw [ht]
    simp only [Bool.true_eq_false, false_or, if_false, Option.getD_some]
    rw [diffPieces_self, List.map_map]
    have hrp : renderPiece ∘ DiffPiece.same = id := by
      funext x
      rfl
    rw [hrp, List.map_id]
    exact congrArg some (joinLines_splitLines s.data)
  · intro old extra hold hnl
    have hdata : (old ++ "\n" ++ extra).data = old.data ++ '\n' :: extra.data := by
      simp [String.data_append]
    have hsplit : splitLinesS (old ++ "\n" ++ extra) = splitLinesS old ++ [extra] := by
      unfold splitLinesS
      rw [hdata, splitLines_append_newline, splitLines_no_newline extra.data hnl]
      simp

    rw [hsplit, diffPieces_append_one]

/-- Witness for C9: the two-line text "a\nb" diffed against itself
renders unchanged, and "x" against "x\ny" tags only the trailing line
as added. -/
theorem highlightDiff_spec_witness :
    highlightDiff (some "a\nb") (some "a\nb") = some "a\nb" ∧
    diffPieces (splitLinesS "x") (splitLinesS ("x" ++ "\n" ++ "y")) =
      (splitLinesS "x").map DiffPiece.same ++ [DiffPiece.added "y"] :=
  ⟨(highlightDiff_spec.2.1 "a\nb" (by decide)).2,
   highlightDiff_spec.2.2 "x" "y" (by decide) (by decide)⟩

/-! ## Claim C8: introduce-then-override scenario -/

/-- C8: for a base name `X` appearing unsuffixed at an included revision
`R1` and in suffixed form at a later included revision `R2` with a
different value, the reconciler yields a base entity with
`introducingRevision = R1` (uppercased), the unsuffixed type and value,
and exactly one override entry `{revision: R2, value, type}`.  In
particular, on the specification's concrete scenario input the result is
`baseVars.FOO = {uint64, "1", PHASE0}` and
`forkVars.FOO = [{ALTAIR, "2", uint64}]` (see the witness). -/
theorem collectVariables_intro_override (R1 R2 X sfx t1 v1 t2 v2 field : String)
    (hne : R1 ≠ R2)
    (h1 : phaseIncluded R1 = true)
    (h2 : phaseIncluded R2 = true)
    (hX : parseForkName X [jsToUpper R1, jsToUpper R2] = { base := X, fork := none })
    (hsfx : parseForkName sfx [jsToUpper R1, jsToUpper R2] =
      { base := X, fork := some (jsToUpper R2) })
    (hR2 : jsToUpper R2 ≠ "")
    (hv : v2 ≠ v1) :
    collectVariables (some [(R1, [(field, [(X, [t1, v1])])]),
                            (R2, [(field, [(sfx, [t2, v2])])])]) field =
      { baseVars := [(X, { type := t1, value := v1, introducingFork := jsToUpper R1 })],
        forkVars := [(X, [{ fork := jsToUpper R2, value := v2, type := t2 }])] } := by
  simp [collectVariables, processPhase, processVar, processVarFork, baseVarsEnsured,
    forkVarsEnsured, lfvEnsured, lfvInit, parseValueArr, alookup, alookup2,
    aset, amapAt, jsOr, strTruthy, hX, hsfx, h1, h2, hne, hR2, hv, List.get?]

/-- Witness for C8: the specification's concrete scenario. -/
theorem collectVariables_intro_override_witness :
    collectVariables (some scenarioData) "constant_vars" =
      { baseVars := [("FOO",
          { type := "uint64", value := "1", introducingFork := "PHASE0" })],
        forkVars := [("FOO",
          [{ fork := "ALTAIR", value := "2", type := "uint64" }])] } := by
  have h := collectVariables_intro_override "PHASE0" "ALTAIR" "FOO" "FOO_ALTAIR"
    "uint64" "1" "uint64" "2" "constant_vars" (by decide) (by decide) (by decide)
    (by decide) (by decide) (by decide) (by decide)
  have e1 : jsToUpper "PHASE0" = "PHASE0" := by decide
  have e2 : jsToUpper "ALTAIR" = "ALTAIR" := by decide
  rw [e1, e2] at h
  exact h

/-! ## Claim C2: multiple override entries per revision, last write wins -/

/-- C2 counterexample: when the same suffixed name recurs under a later
phase with a changed value, the override list holds two entries with the
same revision label, refuting "at most one entry per revision". -/
theorem overrides_dup_revision_cex :
    alookup (collectVariables (some dataDupRevision) "constant_vars").forkVars "FOO" =
      some [{ fork := "ALTAIR", value := "2", type := "t" },
            { fork := "ALTAIR", value := "3", type := "t" }] ∧
    List.countP (fun f => f.fork == "ALTAIR")
      ((alookup (collectVariables (some dataDupRevision) "constant_vars").forkVars
        "FOO").getD []) = 2 := by
  constructor <;> decide

theorem foldl_overwrite_eq_getLast (arr : List ForkVar) (fk : String)
    (init : Option (String × String)) :
    arr.foldl (fun acc f => if f.fork = fk then some (f.value, f.type) else acc) init =
      match (arr.filter (fun f => f.fork == fk)).getLast? with
      | some f => some (f.value, f.type)
      | none => init := by
  induction arr using List.reverseRecOn with
  | nil => rfl
  | append_singleton as a ih =>
    rw [List.foldl_append, List.foldl_cons, List.foldl_nil, List.filter_append]
    by_cases h : a.fork = fk
    · simp [h, List.getLast?_concat]
    · simp [h, ih]

/-- C2 (amended): the override list can contain more than one entry per
revision label (see the counterexample), and the row builder's
per-revision lookup `getForkValue` resolves this by last-write-wins: its
scan overwrites the found value on every match, so it returns the value
and type of the last matching entry. -/
theorem getForkValue_last_write_wins (fk : String) (bv : BaseVar) (arr : List ForkVar)
    (h : fk ≠ bv.introducingFork) :
    getForkValue fk (some bv) (some arr) =
      match (arr.filter (fun f => f.fork == fk)).getLast? with
      | none => { value := none, type := "" }
      | some f => { value := some f.value, type := f.type } := by
  have e : getForkValue fk (some bv) (some arr) =
      if fk = bv.introducingFork then { value := some bv.value, type := bv.type }
      else
        match arr.foldl
            (fun acc f => if f.fork = fk then some (f.value, f.type) else acc)
            (none : Option (String × String)) with
        | none => { value := none, type := "" }
        | some (v, t) => { value := some v, type := t } := rfl
  rw [e, if_neg h, foldl_overwrite_eq_getLast]
  cases (arr.filter (fun f => f.fork == fk)).getLast? <;> rfl

/-- Witness for C2 (amended): two entries for ALTAIR resolve to the
later entry's value. -/
theorem getForkValue_last_write_wins_witness :
    getForkValue "ALTAIR" (some { type := "t", value := "1", introducingFork := "PHASE0" })
      (some [{ fork := "ALTAIR", value := "2", type := "t" },
             { fork := "ALTAIR", value := "3", type := "t" }]) =
      { value := some "3", type := "t" } := by
  have h := getForkValue_last_write_wins "ALTAIR"
    { type := "t", value := "1", introducingFork := "PHASE0" }
    [{ fork := "ALTAIR", value := "2", type := "t" },
     { fork := "ALTAIR", value := "3", type := "t" }] (by decide)
  rw [h]
  rfl

/-! ## Association-list lemmas -/

theorem alookup2_eq {α : Type} (l : List (String × List (String × α))) (k1 k2 : String) :
    alookup2 l k1 k2 = alookup ((alookup l k1).getD []) k2 := by
  unfold alookup2
  cases alookup l k1 with
  | none => rfl
  | some m => rfl

theorem alookup_append {α : Type} (l m : List (String × α)) (k : String) :
    alookup (l ++ m) k = (alookup l k).or (alookup m k) := by
  induction l with
  | nil => rfl
  | cons p rest ih =>
    simp only [List.cons_append, alookup]
    by_cases h : p.1 = k
    · simp [h]
    · simp [h, ih]

theorem alookup_amapAt {α : Type} (l : List (String × α)) (k k' : String) (g : α → α) :
    alookup (amapAt l k g) k' = if k' = k then (alookup l k').map g else alookup l k' := by
  induction l with
  | nil => by_cases h : k' = k <;> simp [amapAt, alookup, h]
  | cons p rest ih =>
    simp only [amapAt, List.map_cons] at ih ⊢
    by_cases hp : p.1 = k <;> by_cases hq : p.1 = k'
    · have hk : k' = k := by rw [← hq, hp]
      rw [if_pos hp]
      simp only [alookup, if_pos hq, if_pos hk]
      rfl
    · have hk : ¬k' = k := fun e => hq (by rw [hp, ← e])
      rw [if_pos hp]
      simp only [alookup, if_neg hq, if_neg hk] at ih ⊢
      exact ih
    · have hk : ¬k' = k := fun e => hp (by rw [hq, e])
      rw [if_neg hp]
      simp only [alookup, if_pos hq, if_neg hk]
    · rw [if_neg hp]
      simp only [alookup, if_neg hq]
      exact ih

theorem alookup_aset {α : Type} (l : List (String × α)) (k k' : String) (v : α) :
    alookup (aset l k v) k' = if k' = k then some v else alookup l k' := by
  induction l with
  | nil =>
    simp only [aset, alookup]
    by_cases h : k = k'
    · simp [h]
    · have h' : ¬k' = k := fun e => h e.symm
      simp [h, h']
  | cons p rest ih =>
    simp only [aset]
    by_cases hp : p.1 = k
    · rw [if_pos hp]
      simp only [alookup]
      by_cases hk : k = k'
      · simp [hk]
      · have hk' : ¬k' = k := fun e => hk e.symm
        simp [hk, hk', hp]
    · rw [if_neg hp]
      simp only [alookup]
      by_cases hq : p.1 = k'
      · have hk : ¬k' = k := fun e => hp (by rw [hq, e])
        simp [hq, hk]
      · simp [hq, ih]

theorem alookup_ensure_some {α : Type} (l : List (String × α)) (k : String) (v : α) :
    ∃ x, alookup (if (alookup l k).isNone then l ++ [(k, v)] else l) k = some x := by
  by_cases h : (alookup l k).isNone
  · rw [if_pos h, alookup_append, Option.isNone_iff_eq_none.mp h]
    exact ⟨v, by simp [alookup]⟩
  · rw [if_neg h]
    cases hm : alookup l k with
    | none => rw [hm] at h; simp at h
    | some x => exact ⟨x, rfl⟩

theorem alookup_ensure_getD_nil {α : Type} (l : List (String × List α)) (k b : String) :
    (alookup (if (alookup l k).isNone then l ++ [(k, [])] else l) b).getD [] =
      (alookup l b).getD [] := by
  by_cases h : (alookup l k).isNone
  · rw [if_pos h, alookup_append]
    by_cases hb : b = k
    · subst hb
      rw [Option.isNone_iff_eq_none.mp h]
      simp [alookup]
    · have hkb : ¬k = b := fun e => hb e.symm
      have hnone : alookup [(k, ([] : List α))] b = none := by
        simp [alookup, hkb]
      rw [hnone, Option.or_none]
  · rw [if_neg h]

/-! ## The per-(base, fork) override chain invariant (claim C1) -/

/-- The value chains of `forkVars` restricted to one revision label are
duplicate-free in adjacent positions, and the `lastForkValue` tracker
points at the last recorded value of each such chain. -/
def SameForkChain (st : CollectState) : Prop :=
  ∀ base fork : String,
    List.Chain' (fun a b : ForkVar => a.value ≠ b.value)
      (((alookup st.forkVars base).getD []).filter (fun e => e.fork == fork)) ∧
    (∀ lastE : ForkVar,
      (((alookup st.forkVars base).getD []).filter (fun e => e.fork == fork)).getLast? =
        some lastE →
      alookup2 st.lastForkValue base fork = some lastE.value)

theorem forkVarsEnsured_getD (st : CollectState) (base b : String) :
    (alookup (forkVarsEnsured st base) b).getD [] = (alookup st.forkVars b).getD [] :=
  alookup_ensure_getD_nil st.forkVars base b

theorem lfvEnsured_getD (st : CollectState) (base b : String) :
    (alookup (lfvEnsured st base) b).getD [] = (alookup st.lastForkValue b).getD [] :=
  alookup_ensure_getD_nil st.lastForkValue base b

theorem alookup2_lfvEnsured (st : CollectState) (base b f : String) :
    alookup2 (lfvEnsured st base) b f = alookup2 st.lastForkValue b f := by
  rw [alookup2_eq, alookup2_eq, lfvEnsured_getD]

theorem alookup_lfvEnsured_base (st : CollectState) (base : String) :
    ∃ m, alookup (lfvEnsured st base) base = some m :=
  alookup_ensure_some st.lastForkValue base []

theorem alookup_forkVarsEnsured_base (st : CollectState) (base : String) :
    ∃ l, alookup (forkVarsEnsured st base) base = some l :=
  alookup_ensure_some st.forkVars base []

theorem alookup2_lfvInit_same (st : CollectState) (bv1 : List (String × BaseVar))
    (base fork : String) :
    alookup2 (lfvInit st bv1 base fork) base fork =
      match alookup2 st.lastForkValue base fork with
      | some v => some v
      | none => some (((alookup bv1 base).map BaseVar.value).getD "") := by
  unfold lfvInit
  by_cases h : (alookup2 (lfvEnsured st base) base fork).isNone
  · have hst : alookup2 st.lastForkValue base fork = none := by
      rw [← alookup2_lfvEnsured st base]
      exact Option.isNone_iff_eq_none.mp h
    rw [if_pos h, hst]
    obtain ⟨m, hm⟩ := alookup_lfvEnsured_base st base
    rw [alookup2_eq, alookup_amapAt, if_pos rfl, hm]
    simp [alookup_aset]
  · rw [if_neg h, alookup2_lfvEnsured]
    cases hst : alookup2 st.lastForkValue base fork with
    | none =>
      rw [← alookup2_lfvEnsured st base] at hst
      rw [hst] at h
      simp at h
    | some v => rfl

theorem alookup2_lfvInit_other (st : CollectState) (bv1 : List (String × BaseVar))
    (base fork b f : String) (hbf : ¬(b = base ∧ f = fork)) :
    alookup2 (lfvInit st bv1 base fork) b f = alookup2 st.lastForkValue b f := by
  unfold lfvInit
  by_cases h : (alookup2 (lfvEnsured st base) base fork).isNone
  · rw [if_pos h, alookup2_eq, alookup_amapAt]
    by_cases hb : b = base
    · subst hb
      have hf : ¬f = fork := fun e => hbf ⟨rfl, e⟩
      rw [if_pos rfl]
      obtain ⟨m, hm⟩ := alookup_lfvEnsured_base st b
      rw [hm]
      simp only [Option.map_some', Option.getD_some, alookup_aset, if_neg hf]
      have hthis := alookup2_lfvEnsured st b b f
      rw [alookup2_eq, hm] at hthis
      simpa using hthis
    · rw [if_neg hb, ← alookup2_eq, alookup2_lfvEnsured]
  · rw [if_neg h, alookup2_lfvEnsured]

theorem alookup_lfvInit_base (st : CollectState) (bv1 : List (String × BaseVar))
    (base fork : String) :
    ∃ m, alookup (lfvInit st bv1 base fork) base = some m := by
  unfold lfvInit
  obtain ⟨m, hm⟩ := alookup_lfvEnsured_base st base
  by_cases h : (alookup2 (lfvEnsured st base) base fork).isNone
  · rw [if_pos h]
    refine ⟨aset m fork (((alookup bv1 base).map BaseVar.value).getD ""), ?_⟩
    rw [alookup_amapAt, if_pos rfl, hm]
    rfl
  · rw [if_neg h]
    exact ⟨m, hm⟩

theorem alookup2_amapAt_aset (l : List (String × List (String × String)))
    (base fork v b f : String) (m : List (String × String))
    (hpres : alookup l base = some m) :
    alookup2 (amapAt l base (fun mm => aset mm fork v)) b f =
      if b = base ∧ f = fork then some v else alookup2 l b f := by
  rw [alookup2_eq, alookup_amapAt]
  by_cases hb : b = base
  · subst hb
    rw [if_pos rfl, hpres]
    simp only [Option.map_some', Option.getD_some, alookup_aset]
    by_cases hf : f = fork
    · simp [hf]
    · rw [alookup2_eq, hpres]
      simp [hf]
  · rw [if_neg hb, if_neg (fun e : b = base ∧ f = fork => hb e.1), ← alookup2_eq]

theorem forkVars_push_getD (st : CollectState) (base b : String) (e : ForkVar) :
    (alookup (amapAt (forkVarsEnsured st base) base (fun l => l ++ [e])) b).getD [] =
      if b = base then ((alookup st.forkVars b).getD []) ++ [e]
      else (alookup st.forkVars b).getD [] := by
  rw [alookup_amapAt]
  by_cases hb : b = base
  · subst hb
    rw [if_pos rfl, if_pos rfl]
    obtain ⟨l, hl⟩ := alookup_forkVarsEnsured_base st b
    have hg := forkVarsEnsured_getD st b b
    rw [hl] at hg ⊢
    simp only [Option.getD_some] at hg
    rw [← hg]
    rfl
  · rw [if_neg hb, if_neg hb, forkVarsEnsured_getD]

theorem sameForkChain_processVarFork (st : CollectState)
    (bv1 : List (String × BaseVar)) (base fork : String) (parsed : ParsedValue)
    (h : SameForkChain st) : SameForkChain (processVarFork st bv1 base fork parsed) := by
  unfold processVarFork
  by_cases hpush : parsed.value ≠ (alookup2 (lfvInit st bv1 base fork) base fork).getD ""
  · rw [if_pos hpush]
    intro b f
    dsimp only
    rw [forkVars_push_getD]
    obtain ⟨m, hm⟩ := alookup_lfvInit_base st bv1 base fork
    rw [alookup2_amapAt_aset _ _ _ _ _ _ _ hm]
    by_cases hb : b = base
    · subst hb
      rw [if_pos rfl]
      by_cases hf : f = fork
      · subst hf
        rw [List.filter_append]
        have hfe : List.filter (fun e => e.fork == f)
            [({ fork := f, value := parsed.value, type := parsed.type } : ForkVar)] =
            [{ fork := f, value := parsed.value, type := parsed.type }] := by
          simp
        rw [hfe]
        constructor
        · rw [List.chain'_append]
          refine ⟨(h b f).1, List.chain'_singleton _, ?_⟩
          intro x hx y hy
          simp only [List.head?_cons, Option.mem_def, Option.some.injEq] at hy
          have htr := (h b f).2 x (Option.mem_def.mp hx)
          have hsame := alookup2_lfvInit_same st bv1 b f
          rw [htr] at hsame
          rw [hsame] at hpush
          simp only [Option.getD_some] at hpush
          rw [← hy]
          exact fun e => hpush e.symm
        · intro lastE hlast
          rw [List.getLast?_concat] at hlast
          rw [if_pos ⟨rfl, rfl⟩]
          cases hlast
          rfl
      · have hne : ¬(b = b ∧ f = fork) := fun e => hf e.2
        rw [if_neg hne, alookup2_lfvInit_other st bv1 b fork b f hne]
        have hfe : List.filter (fun e => e.fork == f)
            [({ fork := fork, value := parsed.value, type := parsed.type } : ForkVar)] =
            [] := by
          simp
          exact fun e => hf e.symm
        rw [List.filter_append, hfe, List.append_nil]
        exact h b f
    · have hne : ¬(b = base ∧ f = fork) := fun e => hb e.1
      rw [if_neg hb, if_neg hne, alookup2_lfvInit_other st bv1 base fork b f hne]
      exact h b f
  · rw [if_neg hpush]
    intro b f
    dsimp only
    rw [forkVarsEnsured_getD]
    constructor
    · exact (h b f).1
    · intro lastE hlast
      by_cases hbf : b = base ∧ f = fork
      · obtain ⟨hb1, hb2⟩ := hbf
        subst hb1
        subst hb2
        have htr := (h b f).2 lastE hlast
        rw [alookup2_lfvInit_same, htr]
      · rw [alookup2_lfvInit_other st bv1 base fork b f hbf]
        exact (h b f).2 lastE hlast

theorem sameForkChain_processVar (known : List String) (phaseName : String)
    (st : CollectState) (nv : String × RawRecord) (h : SameForkChain st) :
    SameForkChain (processVar known phaseName st nv) := by
  unfold processVar
  by_cases hfork : strTruthy (parseForkName nv.1 known).fork = false
  · rw [if_pos hfork]
    intro b f
    exact h b f
  · rw [if_neg hfork]
    exact sameForkChain_processVarFork _ _ _ _ _ h

theorem sameForkChain_foldl {β : Type} (f : CollectState → β → CollectState)
    (hf : ∀ st x, SameForkChain st → SameForkChain (f st x)) :
    ∀ (l : List β) (st : CollectState), SameForkChain st → SameForkChain (l.foldl f st)
  | [], _, h => h
  | x :: xs, st, h => sameForkChain_foldl f hf xs (f st x) (hf st x h)

theorem sameForkChain_processPhase (d : DataObj) (field : String) (known : List String)
    (st : CollectState) (p : String) (h : SameForkChain st) :
    SameForkChain (processPhase d field known st p) := by
  unfold processPhase
  split
  · exact h
  · split
    · exact h
    · exact sameForkChain_foldl _ (fun st nv => sameForkChain_processVar known p st nv)
        _ st h

/-- C1 (amended): for every dataset, field, base name and revision
label, the subsequence of the override list carrying that revision label
has no two adjacent entries with equal value: an entry is appended only
when its value differs from the most-recently-recorded value for that
base entity AND that specific revision (the tracker is per (base,
revision), not per base, so entries for different revisions may repeat a
value back to back — see the counterexample). -/
theorem overrides_same_revision_adjacent_distinct (data : Option DataObj)
    (field base fork : String) :
    List.Chain' (fun a b : ForkVar => a.value ≠ b.value)
      (((alookup (collectVariables data field).forkVars base).getD []).filter
        (fun e => e.fork == fork)) := by
  cases data with
  | none => simp [collectVariables, alookup]
  | some d =>
    have hinit : SameForkChain { baseVars := [], forkVars := [], lastForkValue := [] } := by
      intro b f
      constructor
      · simp [alookup]
      · intro lastE hlast
        simp [alookup] at hlast
    have hfold := sameForkChain_foldl
      (processPhase d field (((d.map Prod.fst).filter phaseIncluded).map jsToUpper))
      (fun st p => sameForkChain_processPhase d field _ st p)
      ((d.map Prod.fst).filter phaseIncluded)
      { baseVars := [], forkVars := [], lastForkValue := [] } hinit
    exact (hfold base fork).1

/-- C1 counterexample: with `FOO` changing to the same value "2" at two
different forks, the override list holds two adjacent entries with equal
value, refuting the claim that adjacent entries always differ. -/
theorem overrides_adjacent_equal_cex :
    alookup (collectVariables (some dataAdjacentEqual) "constant_vars").forkVars "FOO" =
      some [{ fork := "ALTAIR", value := "2", type := "t" },
            { fork := "BELLATRIX", value := "2", type := "t" }] ∧
    ¬ List.Chain' (fun a b : ForkVar => a.value ≠ b.value)
      [({ fork := "ALTAIR", value := "2", type := "t" } : ForkVar),
       { fork := "BELLATRIX", value := "2", type := "t" }] := by
  constructor
  · decide
  · intro hch
    rw [List.chain'_cons] at hch
    exact hch.1 rfl

/-! ## The first-record invariant for introducingFork (claim C4) -/

/-- The record-level fold equivalent to `collectVariables` on a present
dataset: the nested phase/variable iteration flattened over
`procRecords`. -/
def collectFold (d : DataObj) (field : String) : CollectState :=
  (procRecords d field).foldl (fun st r => processVar (knownNames d) r.1 st r.2)
    { baseVars := [], forkVars := [], lastForkValue := [] }

theorem foldl_flatMap {α β σ : Type} (g : σ → β → σ) (f : α → List β) (l : List α)
    (s : σ) :
    (l.flatMap f).foldl g s = l.foldl (fun s a => (f a).foldl g s) s := by
  induction l generalizing s with
  | nil => rfl
  | cons a as ih => simp [List.flatMap_cons, List.foldl_append, ih]

theorem processPhase_eq_records_foldl (d : DataObj) (field : String)
    (known : List String) (st : CollectState) (p : String) :
    processPhase d field known st p =
      ((match alookup d p with
        | none => []
        | some po =>
          match alookup po field with
          | none => []
          | some vm => vm.map (fun nv => (p, nv.1, nv.2))) :
        List (String × String × RawRecord)).foldl
        (fun st r => processVar known r.1 st r.2) st := by
  unfold processPhase
  split
  · rfl
  · split
    · rfl
    · rw [List.foldl_map]

theorem phases_foldl_eq_records_foldl (d : DataObj) (field : String)
    (init : CollectState) :
    ((d.map Prod.fst).filter phaseIncluded).foldl
      (processPhase d field (knownNames d)) init =
      (procRecords d field).foldl (fun st r => processVar (knownNames d) r.1 st r.2)
        init := by
  unfold procRecords
  rw [foldl_flatMap]
  congr 1
  funext st p
  exact processPhase_eq_records_foldl d field (knownNames d) st p

theorem collectVariables_some_eq (d : DataObj) (field : String) :
    collectVariables (some d) field =
      { baseVars := (collectFold d field).baseVars,
        forkVars := (collectFold d field).forkVars } := by
  unfold collectVariables collectFold
  rw [← phases_foldl_eq_records_foldl]
  rfl

theorem alookup_baseVarsEnsured (st : CollectState) (pr : ParsedFork)
    (phaseName : String) (parsed : ParsedValue) (b : String) :
    alookup (baseVarsEnsured st pr phaseName parsed) b =
      if b = pr.base then
        match alookup st.baseVars pr.base with
        | some bv => some bv
        | none => some { type := parsed.type, value := parsed.value, introducingFork := jsToUpper (jsOr pr.fork phaseName) }
      else alookup st.baseVars b := by
  unfold baseVarsEnsured
  by_cases h : (alookup st.baseVars pr.base).isNone
  · rw [if_pos h, alookup_append, Option.isNone_iff_eq_none.mp h]
    by_cases hb : b = pr.base
    · subst hb
      rw [if_pos rfl, Option.isNone_iff_eq_none.mp h]
      simp [alookup]
    · have hb' : ¬pr.base = b := fun e => hb e.symm
      rw [if_neg hb]
      simp [alookup, hb']
  · rw [if_neg h]
    by_cases hb : b = pr.base
    · subst hb
      rw [if_pos rfl]
      cases hm : alookup st.baseVars pr.base with
      | none => rw [hm] at h; simp at h
      | some bv => rfl
    · rw [if_neg hb]

theorem processVar_baseVars_other (known : List String) (phaseName : String)
    (st : CollectState) (nv : String × RawRecord) (b : String)
    (hb : ¬b = (parseForkName nv.1 known).base) :
    alookup (processVar known phaseName st nv).baseVars b = alookup st.baseVars b := by
  unfold processVar
  by_cases hfork : strTruthy (parseForkName nv.1 known).fork = false
  · rw [if_pos hfork]
    dsimp only
    rw [alookup_amapAt, if_neg hb, alookup_baseVarsEnsured, if_neg hb]
  · rw [if_neg hfork]
    unfold processVarFork
    split <;> dsimp only <;> rw [alookup_baseVarsEnsured, if_neg hb]

theorem processVar_baseVars_same (known : List String) (phaseName : String)
    (st : CollectState) (nv : String × RawRecord) :
    ∃ bv, alookup (processVar known phaseName st nv).baseVars
        (parseForkName nv.1 known).base = some bv ∧
      bv.introducingFork =
        (match alookup st.baseVars (parseForkName nv.1 known).base with
         | some bv0 => bv0.introducingFork
         | none => jsToUpper (jsOr (parseForkName nv.1 known).fork phaseName)) := by
  unfold processVar
  by_cases hfork : strTruthy (parseForkName nv.1 known).fork = false
  · rw [if_pos hfork]
    dsimp only
    rw [alookup_amapAt, if_pos rfl, alookup_baseVarsEnsured, if_pos rfl]
    cases hm : alookup st.baseVars (parseForkName nv.1 known).base with
    | none => exact ⟨_, rfl, rfl⟩
    | some bv0 => exact ⟨_, rfl, rfl⟩
  · rw [if_neg hfork]
    unfold processVarFork
    split <;> dsimp only <;> rw [alookup_baseVarsEnsured, if_pos rfl] <;>
      cases hm : alookup st.baseVars (parseForkName nv.1 known).base <;>
      exact ⟨_, rfl, rfl⟩

/-- Invariant: after processing a prefix of the record list, each base
name either has no entry (no record of the prefix parses to it) or its
entry's `introducingFork` is the resolved revision of the first record
of the prefix that parses to it. -/
def IntroInv (known : List String) (processed : List (String × String × RawRecord))
    (st : CollectState) : Prop :=
  ∀ base : String,
    match processed.find? (fun r => (parseForkName r.2.1 known).base == base) with
    | none => alookup st.baseVars base = none
    | some r => ∃ bv, alookup st.baseVars base = some bv ∧
        bv.introducingFork = resolveRev known r.1 r.2.1

theorem introInv_step (known : List String)
    (processed : List (String × String × RawRecord)) (st : CollectState)
    (r : String × String × RawRecord) (h : IntroInv known processed st) :
    IntroInv known (processed ++ [r]) (processVar known r.1 st r.2) := by
  intro base
  rw [List.find?_append]
  by_cases hb : (parseForkName r.2.1 known).base = base
  · cases hfp : processed.find? (fun rr => (parseForkName rr.2.1 known).base == base) with
    | some r0 =>
      rw [Option.or_some]
      have hh := h base
      rw [hfp] at hh
      obtain ⟨bv0, hbv0, hif⟩ := hh
      obtain ⟨bv, hbv, hbvif⟩ := processVar_baseVars_same known r.1 st r.2
      rw [hb] at hbv hbvif
      rw [hbv0] at hbvif
      exact ⟨bv, hbv, by rw [hbvif]; exact hif⟩
    | none =>
      have hfind1 : List.find? (fun rr => (parseForkName rr.2.1 known).base == base) [r] =
          some r := by
        simp [List.find?_cons, hb]
      rw [Option.none_or, hfind1]
      have hh := h base
      rw [hfp] at hh
      obtain ⟨bv, hbv, hbvif⟩ := processVar_baseVars_same known r.1 st r.2
      rw [hb] at hbv hbvif
      rw [hh] at hbvif
      exact ⟨bv, hbv, hbvif⟩
  · have hfind1 : List.find? (fun rr => (parseForkName rr.2.1 known).base == base) [r] =
        none := by
      simp [List.find?_cons, hb]
    rw [hfind1, Option.or_none]
    have hlook := processVar_baseVars_other known r.1 st r.2 base (fun e => hb e.symm)
    have hh := h base
    cases hfp : processed.find? (fun rr => (parseForkName rr.2.1 known).base == base) with
    | none =>
      rw [hfp] at hh
      rw [hlook]
      exact hh
    | some r0 =>
      rw [hfp] at hh
      obtain ⟨bv0, hbv0, hif⟩ := hh
      exact ⟨bv0, by rw [hlook]; exact hbv0, hif⟩

theorem introInv_foldl (known : List String) :
    ∀ (l acc : List (String × String × RawRecord)) (st : CollectState),
    IntroInv known acc st →
    IntroInv known (acc ++ l) (l.foldl (fun st r => processVar known r.1 st r.2) st)
  | [], _, _, h => by simpa using h
  | r :: rs, acc, st, h => by
    have h1 := introInv_step known acc st r h
    have h2 := introInv_foldl known rs (acc ++ [r]) _ h1
    simpa using h2

/-- C4 (amended): for every dataset, field and base name, the
`introducingRevision` recorded in `baseVars` equals the revision
resolved from the FIRST record for that base name in processing order
(included phases in dataset insertion order, entity keys in object
order): the suffix revision when the name is suffixed, otherwise the
containing phase name, uppercased.  This coincides with the earliest
revision by the fork order only when the base name's records appear in
chronological order; the counterexample shows a dataset where the first
record resolves to a chronologically later revision. -/
theorem introducingFork_eq_first_record (d : DataObj) (field base : String)
    (bv : BaseVar)
    (h : alookup (collectVariables (some d) field).baseVars base = some bv) :
    ∃ r, (procRecords d field).find?
        (fun r => (parseForkName r.2.1 (knownNames d)).base == base) = some r ∧
      bv.introducingFork = resolveRev (knownNames d) r.1 r.2.1 := by
  have hinit : IntroInv (knownNames d) []
      { baseVars := [], forkVars := [], lastForkValue := [] } := by
    intro b
    rfl
  have hinv := introInv_foldl (knownNames d) (procRecords d field) []
    { baseVars := [], forkVars := [], lastForkValue := [] } hinit
  rw [List.nil_append] at hinv
  have hinv' := hinv base
  have h' : alookup (collectFold d field).baseVars base = some bv := by
    rw [collectVariables_some_eq] at h
    exact h
  cases hfp : (procRecords d field).find?
      (fun r => (parseForkName r.2.1 (knownNames d)).base == base) with
  | none =>
    rw [hfp] at hinv'
    have hnone : alookup (collectFold d field).baseVars base = none := hinv'
    rw [hnone] at h'
    cases h'
  | some r =>
    rw [hfp] at hinv'
    obtain ⟨bv', hbv', hif⟩ := hinv'
    have hbv2 : alookup (collectFold d field).baseVars base = some bv' := hbv'
    rw [hbv2] at h'
    cases h'
    exact ⟨r, rfl, hif⟩

/-- Witness for C4 (amended): on the scenario dataset the first record
for FOO is the unsuffixed record under PHASE0, and the recorded
introducing fork is its resolved revision. -/
theorem introducingFork_eq_first_record_witness :
    ∃ r, (procRecords scenarioData "constant_vars").find?
        (fun r => (parseForkName r.2.1 (knownNames scenarioData)).base == "FOO") =
          some r ∧
      ({ type := "uint64", value := "1", introducingFork := "PHASE0" } :
        BaseVar).introducingFork = resolveRev (knownNames scenarioData) r.1 r.2.1 :=
  introducingFork_eq_first_record scenarioData "constant_vars" "FOO"
    { type := "uint64", value := "1", introducingFork := "PHASE0" } (by decide)

/-- C4 counterexample: in `dataLateIntro` the first record for FOO is
the suffixed `FOO_BELLATRIX` under phase PHASE0, so the recorded
introducing revision is BELLATRIX, even though a record for FOO also
appears at ALTAIR, which is strictly earlier in the fork order derived
from this dataset — the introducing revision is NOT the earliest
appearance by RevisionOrder. -/
theorem introducingFork_not_earliest_cex :
    alookup (collectVariables (some dataLateIntro) "constant_vars").baseVars "FOO" =
      some { type := "t", value := "1", introducingFork := "BELLATRIX" } ∧
    "ALTAIR" ∈ appearanceRevs dataLateIntro "constant_vars" "FOO" ∧
    forkGroupCompareAscending (initForkOrder dataLateIntro) "ALTAIR" "BELLATRIX" < 0 := by
  refine ⟨by decide, by decide, by decide⟩

end EthSpecViewer
